import Mathlib

/-!
Verification of the GapNeedle core against its specification.

This file shallowly embeds the core functions of the repository:
* `reverse_complement` from `gapneedle/io.py`,
* the FASTA `.fai` index builder `_build_fai`, the index reader
  `_read_index_from_fai` and the range reader `_read_range_from_fasta`
  from `gapneedle/gui/app.py`,
* `parse_paf`, `suggest_overlaps`, `_orientation_adjustment` and the
  region decomposition of `stitch_from_paf` from `gapfillet/stitcher.py`,
* the breakpoint verdict `_all_breakpoints_match` from
  `gapneedle/gui/app.py`,
* the coordinate projection `map_query_to_target_detail` (modelled from
  the specification, since `gapneedle/stitcher.py` is not in the sources).

Python strings are modelled as `List Char` (`Str`), Python integers as
`Int` (or `Nat` where the source guarantees non-negativity), and Python
slices via `List.drop`/`List.take`.
-/

/-- Python strings are modelled as lists of characters. -/
abbrev Str := List Char

namespace GapNeedle

/-! ## Python slicing helpers -/

/-- Python slice `s[a:b]` for non-negative bounds `a`, `b`. -/
def pySlice (s : Str) (a b : Nat) : Str := (s.drop a).take (b - a)

/-- Python slice `s[:n]` where `n` may be negative (counts from the end). -/
def pySliceTo {α : Type} (s : List α) (n : Int) : List α :=
  if 0 ≤ n then s.take n.toNat else s.take (s.length - n.natAbs)

/-- Python `int(str)`: optional surrounding whitespace, an optional sign,
then a nonempty run of decimal digits.  (Underscore separators accepted by
Python are not modelled; none of the repository's files use them.) -/
def pyInt? (s : Str) : Option Int :=
  let t := (s.dropWhile (fun c => c = ' ')).reverse.dropWhile (fun c => c = ' ') |>.reverse
  let (sign, digits) : Int × Str :=
    match t with
    | '-' :: rest => (-1, rest)
    | '+' :: rest => (1, rest)
    | _ => (1, t)
  if digits = [] then none
  else if digits.all (fun c => c.isDigit) then
    some (sign * (digits.foldl (fun acc c => 10 * acc + (c.toNat - '0'.toNat)) 0 : Nat))
  else none

/-- Split a list on a separator element (Python `str.split(sep)` with a
one-character separator). -/
def splitOnChar (sep : Char) : Str → List Str
  | [] => [[]]
  | c :: rest =>
    let r := splitOnChar sep rest
    if c = sep then [] :: r
    else match r with
      | [] => [[c]]
      | h :: t => (c :: h) :: t

/-! ## `reverse_complement` (`gapneedle/io.py`) -/

/-- The character table of `str.maketrans("ACGTacgt" ++ "Nn", "TGCAtgca" ++ "Nn")`;
characters outside the table pass through unchanged. -/
def complementChar (c : Char) : Char :=
  if c = 'A' then 'T'
  else if c = 'C' then 'G'
  else if c = 'G' then 'C'
  else if c = 'T' then 'A'
  else if c = 'a' then 't'
  else if c = 'c' then 'g'
  else if c = 'g' then 'c'
  else if c = 't' then 'a'
  else c

/-- Model of `reverse_complement(seq)`: translate by the complement table, then
reverse (`seq.translate(table)[::-1]`). -/
def reverse_complement (s : Str) : Str := (s.map complementChar).reverse

theorem complementChar_involutive (c : Char) :
    complementChar (complementChar c) = c := by
  by_cases h1 : c = 'A'; · subst h1; rfl
  by_cases h2 : c = 'C'; · subst h2; rfl
  by_cases h3 : c = 'G'; · subst h3; rfl
  by_cases h4 : c = 'T'; · subst h4; rfl
  by_cases h5 : c = 'a'; · subst h5; rfl
  by_cases h6 : c = 'c'; · subst h6; rfl
  by_cases h7 : c = 'g'; · subst h7; rfl
  by_cases h8 : c = 't'; · subst h8; rfl
  simp only [complementChar, if_neg h1, if_neg h2, if_neg h3, if_neg h4,
    if_neg h5, if_neg h6, if_neg h7, if_neg h8]

/-- C10: the reverse-complement helper is an involution: translating by the
complement table (A↔T, C↔G, case-preserving, unmapped characters passed
through) and reversing, twice, returns the original string. -/
theorem reverse_complement_involutive (s : Str) :
    reverse_complement (reverse_complement s) = s := by
  unfold reverse_complement
  rw [List.map_reverse, List.reverse_reverse, List.map_map]
  have : complementChar ∘ complementChar = id := by
    funext c; exact complementChar_involutive c
  rw [this, List.map_id]

/-! ## PAF records (`gapfillet/stitcher.py`)

`parse_paf` streams the file line by line.  Lines are modelled already
split at newlines (so `line.rstrip("\n")` is the identity), and Python
`bytes`/`str` values as `Str`.  A failing `int()` conversion raises in
Python; the embedding returns `Except.error ()`. -/

structure PafRecord where
  target : Str
  t_len : Int
  t_start : Int
  t_end : Int
  strand : Str
  query : Str
  q_len : Int
  q_start : Int
  q_end : Int
  matches' : Int
  aln_len : Int
  mapq : Int
  extras : List Str
deriving DecidableEq, Repr

/-- The `overlap` property: `min(t_end - t_start, q_end - q_start)`. -/
def PafRecord.overlap (r : PafRecord) : Int :=
  min (r.t_end - r.t_start) (r.q_end - r.q_start)

/-- Processing of one line of the PAF file: `Except.error ()` models an
uncaught `ValueError` from `int()`, `.ok none` a skipped line, and
`.ok (some r)` an appended record. -/
def parse_line (line : Str) (target_seq query_seq : Str) :
    Except Unit (Option PafRecord) :=
  if line.all (fun c => c.isWhitespace) then .ok none
  else
    if (splitOnChar '\t' line).length < 12 then .ok none
    else
      match splitOnChar '\t' line with
      | q_name :: q_len :: q_start :: q_end :: strand :: t_name :: t_len ::
          t_start :: t_end :: matchesF :: aln_len :: mapq :: rest =>
        if t_name ≠ target_seq ∨ q_name ≠ query_seq then .ok none
        else
          match pyInt? q_len, pyInt? q_start, pyInt? q_end, pyInt? t_len,
              pyInt? t_start, pyInt? t_end, pyInt? matchesF, pyInt? aln_len,
              pyInt? mapq with
          | some vql, some vqs, some vqe, some vtl, some vts, some vte,
              some vm, some va, some vmq =>
            .ok (some ⟨t_name, vtl, vts, vte, strand, q_name, vql, vqs, vqe,
              vm, va, vmq, rest⟩)
          | _, _, _, _, _, _, _, _, _ => .error ()
      | _ => .ok none

/-- Model of `parse_paf(path, target_seq, query_seq)` over the file's lines. -/
def parse_paf (lines : List Str) (target_seq query_seq : Str) :
    Except Unit (List PafRecord) :=
  match lines with
  | [] => .ok []
  | line :: rest =>
    match parse_line line target_seq query_seq with
    | .error () => .error ()
    | .ok none => parse_paf rest target_seq query_seq
    | .ok (some r) => (parse_paf rest target_seq query_seq).map (r :: ·)

/-! ## Candidate ranking (`suggest_overlaps`)

`records.sort(key=lambda r: r.overlap, reverse=True)` is Python's stable
sort; it is modelled extensionally by a stable insertion sort that places
each record before the first already-placed record of smaller-or-equal
overlap. -/

/-- Stable descending insertion: `x` goes in front of the first element
whose overlap is at most `x`'s (so elements equal to `x` that come later
in the file stay behind it). -/
def insertDesc (x : PafRecord) : List PafRecord → List PafRecord
  | [] => [x]
  | y :: ys =>
    if y.overlap ≤ x.overlap then x :: y :: ys else y :: insertDesc x ys

/-- Stable sort by `overlap`, descending: models `list.sort(key=..., reverse=True)`. -/
def sortOverlapDesc : List PafRecord → List PafRecord
  | [] => []
  | x :: xs => insertDesc x (sortOverlapDesc xs)

/-- The ranking part of `suggest_overlaps`: sort descending by overlap and
apply `records[:limit]` when `limit` is truthy (`if limit:` — `None` and
`0` both leave the list untruncated). -/
def rank_candidates (records : List PafRecord) (limit : Option Int) :
    List PafRecord :=
  let sorted := sortOverlapDesc records
  match limit with
  | none => sorted
  | some n => if n ≠ 0 then pySliceTo sorted n else sorted

/-- Model of `suggest_overlaps(paf_path, target_seq, query_seq, limit)`. -/
def suggest_overlaps (lines : List Str) (target_seq query_seq : Str)
    (limit : Option Int) : Except Unit (List PafRecord) :=
  (parse_paf lines target_seq query_seq).map (rank_candidates · limit)

/-! ### Properties of the stable descending sort -/

theorem insertDesc_perm (x : PafRecord) (l : List PafRecord) :
    (insertDesc x l).Perm (x :: l) := by
  induction l with
  | nil => simp [insertDesc]
  | cons y ys ih =>
    simp only [insertDesc]
    split
    · exact List.Perm.refl _
    · exact (List.Perm.cons y ih).trans (List.Perm.swap x y ys)

theorem sortOverlapDesc_perm (l : List PafRecord) :
    (sortOverlapDesc l).Perm l := by
  induction l with
  | nil => exact List.Perm.refl _
  | cons x xs ih =>
    exact (insertDesc_perm x (sortOverlapDesc xs)).trans (List.Perm.cons x ih)

theorem insertDesc_sorted (x : PafRecord) (l : List PafRecord)
    (h : l.Pairwise (fun a b => b.overlap ≤ a.overlap)) :
    (insertDesc x l).Pairwise (fun a b => b.overlap ≤ a.overlap) := by
  induction l with
  | nil => simp [insertDesc]
  | cons y ys ih =>
    rw [List.pairwise_cons] at h
    simp only [insertDesc]
    by_cases hxy : y.overlap ≤ x.overlap
    · rw [if_pos hxy, List.pairwise_cons]
      refine ⟨?_, List.pairwise_cons.2 h⟩
      intro z hz
      rcases List.mem_cons.1 hz with hz | hz
      · exact hz ▸ hxy
      · exact le_trans (h.1 z hz) hxy
    · rw [if_neg hxy, List.pairwise_cons]
      constructor
      · intro z hz
        have := (insertDesc_perm x ys).mem_iff.1 hz
        rcases List.mem_cons.1 this with hz' | hz'
        · exact hz' ▸ le_of_not_le hxy
        · exact h.1 z hz'
      · exact ih h.2

theorem sortOverlapDesc_sorted (l : List PafRecord) :
    (sortOverlapDesc l).Pairwise (fun a b => b.overlap ≤ a.overlap) := by
  induction l with
  | nil => simp [sortOverlapDesc]
  | cons x xs ih => exact insertDesc_sorted x _ ih

theorem insertDesc_filter (x : PafRecord) (l : List PafRecord) (v : Int) :
    (insertDesc x l).filter (fun r => r.overlap = v)
      = if x.overlap = v then x :: l.filter (fun r => r.overlap = v)
        else l.filter (fun r => r.overlap = v) := by
  induction l with
  | nil => by_cases hx : x.overlap = v <;> simp [insertDesc, hx]
  | cons y ys ih =>
    simp only [insertDesc]
    by_cases hxy : y.overlap ≤ x.overlap
    · rw [if_pos hxy]
      by_cases hx : x.overlap = v <;> simp [hx]
    · rw [if_neg hxy]
      have hlt : x.overlap < y.overlap := lt_of_not_le hxy
      by_cases hy : y.overlap = v
      · have hx : ¬ x.overlap = v := by
          intro hx; rw [hx, hy] at hlt; exact lt_irrefl v hlt
        simp [hy, hx, ih]
      · by_cases hx : x.overlap = v <;> simp [hy, hx, ih]

theorem sortOverlapDesc_filter (l : List PafRecord) (v : Int) :
    (sortOverlapDesc l).filter (fun r => r.overlap = v)
      = l.filter (fun r => r.overlap = v) := by
  induction l with
  | nil => rfl
  | cons x xs ih =>
    simp only [sortOverlapDesc, insertDesc_filter, ih]
    by_cases hx : x.overlap = v <;> simp [hx]

instance {e a : Type} [DecidableEq e] [DecidableEq a] :
    DecidableEq (Except e a) := fun x y =>
  match x, y with
  | .error u, .error v =>
    if h : u = v then isTrue (by rw [h]) else isFalse (by simp [h])
  | .error _, .ok _ => isFalse (by simp)
  | .ok _, .error _ => isFalse (by simp)
  | .ok u, .ok v =>
    if h : u = v then isTrue (by rw [h]) else isFalse (by simp [h])

/-! ### Concrete PAF data used in the claim theorems -/

def pafT : Str := "t".data

def pafQ : Str := "q".data

def cRecA : PafRecord :=
  ⟨"t".data, 100, 0, 50, "+".data, "q".data, 100, 0, 50, 10, 50, 60, []⟩

def c7BadLine : Str := "q\tX\t0\t5\t+\tt\t10\t0\t5\t5\t5\t60".data

def c7GoodLine : Str := "q\t10\t0\t5\t+\tt\t10\t0\t5\t5\t5\t60".data

def c7ShortLine : Str := "garbage line".data

/-- The tag identifier of a `tag:type:value` extension field (its part
before the first `:`). -/
def tagKey (f : Str) : Str := f.takeWhile (fun c => c ≠ ':')

def c8Line : Str := "q\t10\t0\t5\t+\tt\t10\t0\t5\t5\t5\t60\txx:i:1\txx:i:2".data

def c8Record : PafRecord :=
  ⟨"t".data, 10, 0, 5, "+".data, "q".data, 10, 0, 5, 5, 5, 60,
    ["xx:i:1".data, "xx:i:2".data]⟩

def c9BadLine : Str := "q\t10\t5\t3\t+\tt\t10\t0\t5\t5\t5\t60".data

def c9Record : PafRecord :=
  ⟨"t".data, 10, 0, 5, "+".data, "q".data, 10, 5, 3, 5, 5, 60, []⟩

def c9GoodLine : Str := "q\t10\t0\t5\t+\tt\t10\t2\t7\t5\t5\t60".data

def c9GoodRecord : PafRecord :=
  ⟨"t".data, 10, 2, 7, "+".data, "q".data, 10, 0, 5, 5, 5, 60, []⟩

/-- Both spans of a record satisfy `0 ≤ start < end ≤ length`. -/
def spanOk (r : PafRecord) : Bool :=
  decide (0 ≤ r.q_start) && decide (r.q_start < r.q_end) &&
  decide (r.q_end ≤ r.q_len) && decide (0 ≤ r.t_start) &&
  decide (r.t_start < r.t_end) && decide (r.t_end ≤ r.t_len)

/-- A line satisfies the span invariants in so far as it produces a record
at all. -/
def lineSpanOkB (line t q : Str) : Bool :=
  match parse_line line t q with
  | .ok (some r) => spanOk r
  | _ => true

/-! ### C6 -/

/-- C6 counterexample: with `limit = 0` the claim demands truncation to the
first 0 records (the empty list), but `if limit:` treats `0` as falsy and
`rank_candidates` returns the whole sorted list. -/
theorem rank_candidates_limit_zero_cex :
    rank_candidates [cRecA] (some 0) = [cRecA] ∧
    rank_candidates [cRecA] (some 0) ≠ (sortOverlapDesc [cRecA]).take 0 := by
  decide

/-- C6 (amended): `rank_candidates` returns the records stably sorted by
overlap descending (ties keep original file order, stated as preservation
of every equal-overlap fibre); a positive limit truncates to the first
`limit` records, while `limit = None` and `limit = 0` return the full
sorted list. -/
theorem rank_candidates_spec (records : List PafRecord) :
    (∀ limit, (rank_candidates records limit).Pairwise
        (fun a b => b.overlap ≤ a.overlap)) ∧
    (rank_candidates records none).Perm records ∧
    (∀ v : Int, (rank_candidates records none).filter (fun r => r.overlap = v)
        = records.filter (fun r => r.overlap = v)) ∧
    (rank_candidates records (some 0) = rank_candidates records none) ∧
    (∀ n : Int, 0 < n → rank_candidates records (some n)
        = (rank_candidates records none).take n.toNat) := by
  have hs := sortOverlapDesc_sorted records
  refine ⟨?_, sortOverlapDesc_perm records, sortOverlapDesc_filter records,
    by simp [rank_candidates], ?_⟩
  · intro limit
    match limit with
    | none => exact hs
    | some n =>
      simp only [rank_candidates]
      by_cases hn : n ≠ 0
      · rw [if_pos hn]
        unfold pySliceTo
        by_cases h0 : 0 ≤ n
        · rw [if_pos h0]
          exact hs.sublist (List.take_sublist _ _)
        · rw [if_neg h0]
          exact hs.sublist (List.take_sublist _ _)
      · rw [if_neg hn]; exact hs
  · intro n hn
    simp only [rank_candidates]
    rw [if_pos (by omega : n ≠ 0)]
    unfold pySliceTo
    rw [if_pos (le_of_lt hn)]

/-- C6 witness: the amended theorem applied to a concrete record list and
the concrete positive limit 1. -/
theorem rank_candidates_spec_witness :
    rank_candidates [cRecA] (some 1) = (rank_candidates [cRecA] none).take 1 := by
  have h := (rank_candidates_spec [cRecA]).2.2.2.2 1 (by decide)
  simpa using h

/-! ### C7 -/

/-- C7 counterexample: a line with 12 tab-separated fields, matching names,
but a non-integer length column cannot be parsed as a record; the claim
says such a line is silently dropped (which would give `.ok []`), but
`int()` raises and `parse_paf` aborts. -/
theorem parse_paf_aborts_on_malformed :
    parse_paf [c7BadLine] pafT pafQ = .error () ∧
    (splitOnChar '\t' c7BadLine).length = 12 := by decide

/-- C7 (amended): a line with fewer than 12 tab-separated fields is
silently dropped and parsing continues as if the line were absent (lines
with at least 12 matching fields whose numeric columns fail integer
conversion instead abort the parse). -/
theorem parse_paf_drops_short_lines (pre post : List Str) (bad : Str)
    (t q : Str) (hbad : (splitOnChar '\t' bad).length < 12) :
    parse_paf (pre ++ bad :: post) t q = parse_paf (pre ++ post) t q := by
  induction pre with
  | nil =>
    simp only [List.nil_append]
    have hline : parse_line bad t q = .ok none := by
      unfold parse_line
      by_cases hb : bad.all (fun c => c.isWhitespace)
      · rw [if_pos hb]
      · rw [if_neg hb, if_pos hbad]
    simp only [parse_paf, hline]
  | cons l pre ih =>
    simp only [List.cons_append, parse_paf]
    cases parse_line l t q with
    | error e => cases e; rfl
    | ok o =>
      cases o with
      | none => exact ih
      | some r =>
        show Except.map (fun x => r :: x) (parse_paf (pre ++ bad :: post) t q)
          = Except.map (fun x => r :: x) (parse_paf (pre ++ post) t q)
        rw [ih]

/-- C7 witness: the amended theorem applied to a concrete well-formed line
followed by a concrete short line. -/
theorem parse_paf_drops_short_lines_witness :
    parse_paf [c7GoodLine, c7ShortLine] pafT pafQ
      = parse_paf [c7GoodLine] pafT pafQ :=
  parse_paf_drops_short_lines [c7GoodLine] [] c7ShortLine pafT pafQ (by decide)

/-! ### C8 -/

/-- C8 counterexample: two extension fields with the same tag identifier
`xx` are both retained verbatim as plain strings, so `extras` is not a
structure keyed by the tag identifier (a key-indexed map has at most one
entry per key). -/
theorem parse_paf_extras_not_keyed :
    parse_paf [c8Line] pafT pafQ = .ok [c8Record] ∧
    c8Record.extras = ["xx:i:1".data, "xx:i:2".data] ∧
    tagKey ("xx:i:1".data) = tagKey ("xx:i:2".data) ∧
    ("xx:i:1".data : Str) ≠ "xx:i:2".data := by decide

/-- C8 (amended): every record produced from a line holds the fields
beyond the 12 mandatory columns verbatim, as an ordered list of raw
`tag:type:value` strings in file order (not keyed by tag identifier). -/
theorem parse_line_extras_verbatim (line t q : Str) (r : PafRecord)
    (h : parse_line line t q = .ok (some r)) :
    r.extras = (splitOnChar '\t' line).drop 12 := by
  unfold parse_line at h
  split at h
  · exact absurd h (by simp)
  · split at h
    · exact absurd h (by simp)
    · split at h
      · split at h
        · exact absurd h (by simp)
        · split at h
          · injection h with h1
            injection h1 with h2
            subst h2
            simp_all
          · exact absurd h (by simp)
      · exact absurd h (by simp)

/-- C8 witness: the amended theorem applied to the concrete duplicate-tag
line. -/
theorem parse_line_extras_verbatim_witness :
    c8Record.extras = (splitOnChar '\t' c8Line).drop 12 :=
  parse_line_extras_verbatim c8Line pafT pafQ c8Record (by decide)

/-! ### C9 -/

/-- C9 counterexample: `parse_paf` performs no span validation, so a
matching 12-field line with `q_start = 5 > q_end = 3` yields a record
violating `q_start < q_end`. -/
theorem parse_paf_no_span_validation :
    parse_paf [c9BadLine] pafT pafQ = .ok [c9Record] ∧
    ¬ (c9Record.q_start < c9Record.q_end) := by decide

/-- C9 (amended): `parse_paf` copies the numeric columns verbatim, so the
span invariants `0 ≤ start < end ≤ length` hold for every returned record
exactly when the input lines satisfy them; in particular they hold for
every returned record whenever every input line that produces a record
satisfies them. -/
theorem parse_paf_span_invariant (lines : List Str) (t q : Str)
    (recs : List PafRecord) (hp : parse_paf lines t q = .ok recs)
    (hl : ∀ line ∈ lines, lineSpanOkB line t q = true) :
    ∀ r ∈ recs, spanOk r = true := by
  induction lines generalizing recs with
  | nil =>
    simp only [parse_paf] at hp
    injection hp with hp
    subst hp
    intro r hr
    exact absurd hr (List.not_mem_nil r)
  | cons l rest ih =>
    simp only [parse_paf] at hp
    cases hpl : parse_line l t q with
    | error e =>
      rw [hpl] at hp
      cases e
      exact absurd hp (by simp)
    | ok o =>
      rw [hpl] at hp
      cases o with
      | none =>
        exact ih recs hp (fun line hm => hl line (List.mem_cons_of_mem _ hm))
      | some r0 =>
        cases hrest : parse_paf rest t q with
        | error e =>
          rw [hrest] at hp
          exact absurd hp (by simp [Except.map])
        | ok rs =>
          rw [hrest] at hp
          simp only [Except.map] at hp
          injection hp with hp
          subst hp
          intro r hr
          rcases List.mem_cons.1 hr with hr | hr
          · subst hr
            have hb := hl l (List.mem_cons_self l rest)
            unfold lineSpanOkB at hb
            rw [hpl] at hb
            exact hb
          · exact ih rs hrest
              (fun line hm => hl line (List.mem_cons_of_mem _ hm)) r hr

/-- C9 witness: the amended theorem applied to a concrete file of one
well-formed line whose spans satisfy the invariants. -/
theorem parse_paf_span_invariant_witness :
    spanOk c9GoodRecord = true :=
  parse_paf_span_invariant [c9GoodLine] pafT pafQ [c9GoodRecord]
    (by decide) (by decide) c9GoodRecord (List.mem_cons_self _ _)

/-! ## Alignment-driven stitching (`stitch_from_paf`, `gapfillet/stitcher.py`)

Python slices take arbitrary integers; `pyIdx` normalises an integer slice
bound exactly as Python does (negative counts from the end, clamping into
`[0, len]`). -/

/-- Normalise a Python slice bound against a string of length `len`. -/
def pyIdx (len : Nat) (i : Int) : Nat :=
  if i < 0 then ((len : Int) + i).toNat else min i.toNat len

/-- Python slice `s[a:b]` for arbitrary integer bounds. -/
def pySliceI (s : Str) (a b : Int) : Str :=
  (s.drop (pyIdx s.length a)).take (pyIdx s.length b - pyIdx s.length a)

/-- Python slice `s[a:]` for an arbitrary integer bound. -/
def pySliceFrom (s : Str) (a : Int) : Str := s.drop (pyIdx s.length a)

/-- Model of `_orientation_adjustment(rec, seq)`: on `'+'` strand the query is used
as-is with its recorded span, otherwise it is reverse-complemented and the
span mirrored (`q_len - q_end`, `q_len - q_start`). -/
def _orientation_adjustment (rec : PafRecord) (seq : Str) : Str × Int × Int :=
  if rec.strand = "+".data then (seq, rec.q_start, rec.q_end)
  else (reverse_complement seq, rec.q_len - rec.q_end, rec.q_len - rec.q_start)

/-- The five pieces assembled by `stitch_from_paf` in its non-interactive
default configuration (all three selectable regions supplied by the
target, exactly the `default_key="t"` path of `_choose_segment_source`). -/
structure StitchParts where
  left_seq : Str
  left_overhang : Str
  overlap_seq : Str
  right_seq : Str
  right_overhang : Str

/-- Region decomposition of `stitch_from_paf`: `left_common_len`,
`overlap_len`, `right_common_len` and the two automatic overhangs, with
slices exactly as in the source. -/
def stitch_parts (rec : PafRecord) (t_seq q_raw : Str) : StitchParts :=
  let o := _orientation_adjustment rec q_raw
  let q_seq := o.1
  let q_start := o.2.1
  let q_end := o.2.2
  let left_common := min rec.t_start q_start
  let right_common :=
    min ((t_seq.length : Int) - rec.t_end) ((q_seq.length : Int) - q_end)
  { left_seq := pySliceI t_seq 0 left_common
    left_overhang :=
      if q_start < rec.t_start then pySliceI t_seq left_common rec.t_start
      else if rec.t_start < q_start then pySliceI q_seq left_common q_start
      else []
    overlap_seq := pySliceI t_seq rec.t_start (rec.t_start + rec.overlap)
    right_seq := pySliceI t_seq rec.t_end (rec.t_end + right_common)
    right_overhang :=
      if (q_seq.length : Int) - q_end < (t_seq.length : Int) - rec.t_end then
        pySliceFrom t_seq (rec.t_end + right_common)
      else if (t_seq.length : Int) - rec.t_end < (q_seq.length : Int) - q_end then
        pySliceFrom q_seq (q_end + right_common)
      else [] }

/-- The merged sequence `"".join([left_seq, left_overhang, overlap_seq, right_seq,
right_overhang])`. -/
def stitch_merged_seq (rec : PafRecord) (t_seq q_raw : Str) : Str :=
  let p := stitch_parts rec t_seq q_raw
  p.left_seq ++ p.left_overhang ++ p.overlap_seq ++ p.right_seq ++
    p.right_overhang

/-- The merged name, `rec.target`, a plus sign, then `rec.query`. -/
def merged_name (rec : PafRecord) : Str := rec.target ++ "+".data ++ rec.query

/-! ## Coordinate projection (`map_query_to_target_detail`) -/

/-- Parse a CIGAR-style operation string into `(length, op)` pairs. -/
def parse_cigar_aux : Str → Nat → List (Nat × Char)
  | [], _ => []
  | c :: rest, acc =>
    if c.isDigit then parse_cigar_aux rest (10 * acc + (c.toNat - '0'.toNat))
    else (acc, c) :: parse_cigar_aux rest 0

/-- Parse an operation string such as `10M2I38M`. -/
def parse_cigar (s : Str) : List (Nat × Char) := parse_cigar_aux s 0

/-- Outcome of projecting one query position, with the walk diagnostics. -/
structure MapDetail where
  t_pos : Option Int
  reason : Str
  q_consumed : Int
  t_consumed : Int
deriving DecidableEq, Repr

/-- Modelled from the spec: the operation-string tag of a record
(`cg:Z:` extension field), the first matching extra field. -/
def cigar_of (rec : PafRecord) : Option Str :=
  rec.extras.findSome? fun f =>
    if f.take 5 = "cg:Z:".data then some (f.drop 5) else none

/-- Modelled from the spec: the CIGAR walk of §4.3.  Match/equal/mismatch
operations consume both sides, insertions and clips consume query only,
deletions and skips consume target only; the walk stops in the operation
where the running query-consumed total passes the requested offset, and
lands either on a target position (`ok`) or in a query-only operation
(`insertion`). -/
def walk_cigar : List (Nat × Char) → Int → Int → Int → Int → MapDetail
  | [], _, _, qc, tc => ⟨none, "unresolved".data, qc, tc⟩
  | (len, op) :: rest, offset, tstart, qc, tc =>
    let qConsumes := op = 'M' ∨ op = '=' ∨ op = 'X' ∨ op = 'I' ∨ op = 'S' ∨ op = 'H'
    let tConsumes := op = 'M' ∨ op = '=' ∨ op = 'X' ∨ op = 'D' ∨ op = 'N'
    if qConsumes ∧ offset < qc + (len : Int) then
      if tConsumes then ⟨some (tstart + tc + (offset - qc)), "ok".data, qc, tc⟩
      else ⟨none, "insertion".data, qc, tc⟩
    else
      walk_cigar rest offset tstart (qc + if qConsumes then (len : Int) else 0)
        (tc + if tConsumes then (len : Int) else 0)

/-- Modelled from the spec: `map_query_to_target_detail` (the
implementation lives in `gapneedle/stitcher.py`, which is not among the
sources; this definition follows §4.3 of the specification).  A missing
operation string yields `missing_cigar`; a `'-'` strand re-expresses the
position in the forward frame; a position outside `[q_start, q_end)`
yields `out_of_range`; otherwise the CIGAR walk decides. -/
def map_query_to_target_detail (rec : PafRecord) (q_pos : Int) : MapDetail :=
  match cigar_of rec with
  | none => ⟨none, "missing_cigar".data, 0, 0⟩
  | some cg =>
    let oriented := if rec.strand = "-".data then rec.q_len - 1 - q_pos else q_pos
    if oriented < rec.q_start ∨ rec.q_end ≤ oriented then
      ⟨none, "out_of_range".data, 0, 0⟩
    else walk_cigar (parse_cigar cg) (oriented - rec.q_start) rec.t_start 0 0

def c4Record : PafRecord :=
  ⟨"t".data, 200, 100, 110, "+".data, "q".data, 20, 0, 10, 10, 10, 60,
    ["cg:Z:10M".data]⟩

/-- C4: for a record with operation string `10M`, query span `[0,10)`,
target span `[100,110)` and strand `+`, projecting query position 5 gives
target position 105 with reason `ok`, and projecting query position 10
gives reason `out_of_range` with no target position. -/
theorem map_query_to_target_examples :
    map_query_to_target_detail c4Record 5 = ⟨some 105, "ok".data, 0, 0⟩ ∧
    (map_query_to_target_detail c4Record 10).reason = "out_of_range".data ∧
    (map_query_to_target_detail c4Record 10).t_pos = none := by decide

/-! ## Breakpoint verdict (`_all_breakpoints_match`, `gapneedle/gui/app.py`)

A materialized segment is modelled by its four flank strings; the GUI's
`"left_before" in seg` presence test is vacuous here because every value
of the type carries its flanks. -/

structure SegmentFlanks where
  left_before : Str
  left_after : Str
  right_before : Str
  right_after : Str
deriving DecidableEq, Repr

/-- The last `n` characters of `s` (Python `s[-n:]` for `n ≥ 1`; also the
`n`-base window for `n = 0`, where Python is never called). -/
def lastWindow (s : Str) (n : Nat) : Str := s.drop (s.length - n)

/-- One junction of `_all_breakpoints_match`: window lengths
`min(50, len(left.right_before), len(right.left_before))` (and the
`_after` analogue); a zero-length window or any unequal window slice
returns `False`. -/
def pair_match (l r : SegmentFlanks) : Bool :=
  let left_len := min 50 (min l.right_before.length r.left_before.length)
  let right_len := min 50 (min l.right_after.length r.left_after.length)
  if left_len = 0 ∨ right_len = 0 then false
  else if lastWindow l.right_before left_len ≠ lastWindow r.left_before left_len
    then false
  else if l.right_after.take right_len ≠ r.left_after.take right_len then false
  else true

def breakpoints_loop : List SegmentFlanks → Bool
  | l :: r :: rest => pair_match l r && breakpoints_loop (r :: rest)
  | _ => true

/-- Model of `_all_breakpoints_match`: `False` with fewer than two segments, else
every adjacent pair must pass `pair_match`. -/
def _all_breakpoints_match (segs : List SegmentFlanks) : Bool :=
  if segs.length < 2 then false else breakpoints_loop segs

/-- The claim's criterion for one junction (following the spec's words):
the `min(50, available flank length)` windows on the left-flank pair and
on the right-flank pair are character-for-character equal. -/
def windows_agree (l r : SegmentFlanks) : Bool :=
  let left_len := min 50 (min l.right_before.length r.left_before.length)
  let right_len := min 50 (min l.right_after.length r.left_after.length)
  decide (lastWindow l.right_before left_len = lastWindow r.left_before left_len) &&
  decide (l.right_after.take right_len = r.left_after.take right_len)

def c5SegA : SegmentFlanks := ⟨[], [], "AAAA".data, []⟩

def c5SegB : SegmentFlanks := ⟨"AAAA".data, "CCCC".data, [], []⟩

/-- C5 counterexample: when the left segment ends at its sequence end its
`right_after` flank is empty, so the right comparison window has length
`min(50, 0) = 0` and both windows are (trivially) equal — yet
`_all_breakpoints_match` reports fail, against the claim's "pass exactly
when both window pairs are equal". -/
theorem all_breakpoints_match_cex :
    _all_breakpoints_match [c5SegA, c5SegB] = false ∧
    windows_agree c5SegA c5SegB = true := by decide

/-- One junction as the code actually decides it: both windows nonempty
and both equal. -/
def pair_match_spec (l r : SegmentFlanks) : Prop :=
  0 < min 50 (min l.right_before.length r.left_before.length) ∧
  0 < min 50 (min l.right_after.length r.left_after.length) ∧
  lastWindow l.right_before (min 50 (min l.right_before.length r.left_before.length))
    = lastWindow r.left_before (min 50 (min l.right_before.length r.left_before.length)) ∧
  l.right_after.take (min 50 (min l.right_after.length r.left_after.length))
    = r.left_after.take (min 50 (min l.right_after.length r.left_after.length))

theorem pair_match_iff (l r : SegmentFlanks) :
    pair_match l r = true ↔ pair_match_spec l r := by
  unfold pair_match pair_match_spec
  dsimp only
  by_cases h1 : min 50 (min l.right_before.length r.left_before.length) = 0 ∨
      min 50 (min l.right_after.length r.left_after.length) = 0
  · rw [if_pos h1]
    constructor
    · intro hc; exact absurd hc (by simp)
    · rintro ⟨ha, hb, -⟩; omega
  · rw [if_neg h1]
    push_neg at h1
    by_cases h2 : lastWindow l.right_before
        (min 50 (min l.right_before.length r.left_before.length))
      = lastWindow r.left_before
        (min 50 (min l.right_before.length r.left_before.length))
    · rw [if_neg (not_not_intro h2)]
      by_cases h3 : l.right_after.take
          (min 50 (min l.right_after.length r.left_after.length))
        = r.left_after.take
          (min 50 (min l.right_after.length r.left_after.length))
      · rw [if_neg (not_not_intro h3)]
        constructor
        · intro _
          exact ⟨by omega, by omega, h2, h3⟩
        · intro _; rfl
      · rw [if_pos h3]
        constructor
        · intro hc; exact absurd hc (by simp)
        · rintro ⟨-, -, -, hx⟩; exact absurd hx h3
    · rw [if_pos h2]
      constructor
      · intro hc; exact absurd hc (by simp)
      · rintro ⟨-, -, hx, -⟩; exact absurd hx h2

theorem breakpoints_loop_iff (segs : List SegmentFlanks) :
    breakpoints_loop segs = true ↔ segs.Chain' pair_match_spec := by
  match segs with
  | [] => simp [breakpoints_loop]
  | [l] => simp [breakpoints_loop]
  | l :: r :: rest =>
    rw [List.chain'_cons]
    simp only [breakpoints_loop, Bool.and_eq_true]
    rw [pair_match_iff, breakpoints_loop_iff (r :: rest)]

/-- C5 (amended): the breakpoint check reports a pass verdict exactly when
there are at least two segments and, for every adjacent pair, both
comparison windows (of `min(50, available flank length)` bases) are
nonempty and character-for-character equal; a zero-length window — a flank
cut short by a sequence end — yields a fail verdict even though the empty
windows agree. -/
theorem all_breakpoints_match_iff (segs : List SegmentFlanks) :
    _all_breakpoints_match segs = true ↔
      2 ≤ segs.length ∧ segs.Chain' pair_match_spec := by
  unfold _all_breakpoints_match
  by_cases h : segs.length < 2
  · rw [if_pos h]
    constructor
    · intro hc; exact absurd hc (by simp)
    · rintro ⟨h2, -⟩; omega
  · rw [if_neg h, breakpoints_loop_iff]
    have h2 : 2 ≤ segs.length := by omega
    simp [h2]

/-! ### Slice length lemmas and the C3 theorem -/

theorem pySliceI_length (s : Str) (a b : Int) (h0 : 0 ≤ a) (hab : a ≤ b)
    (hb : b ≤ (s.length : Int)) :
    ((pySliceI s a b).length : Int) = b - a := by
  unfold pySliceI pyIdx
  rw [if_neg (by omega), if_neg (by omega)]
  simp only [List.length_take, List.length_drop]
  omega

theorem pySliceFrom_length (s : Str) (a : Int) (h0 : 0 ≤ a)
    (ha : a ≤ (s.length : Int)) :
    ((pySliceFrom s a).length : Int) = (s.length : Int) - a := by
  unfold pySliceFrom pyIdx
  rw [if_neg (by omega)]
  simp only [List.length_drop]
  omega

theorem reverse_complement_length (s : Str) :
    (reverse_complement s).length = s.length := by
  simp [reverse_complement]

theorem orientation_facts (rec : PafRecord) (q_raw : Str)
    (hQ : (q_raw.length : Int) = rec.q_len)
    (h4 : 0 ≤ rec.q_start) (h5 : rec.q_start ≤ rec.q_end)
    (h6 : rec.q_end ≤ rec.q_len) :
    ((_orientation_adjustment rec q_raw).1.length : Int) = rec.q_len ∧
    0 ≤ (_orientation_adjustment rec q_raw).2.1 ∧
    (_orientation_adjustment rec q_raw).2.1
      ≤ (_orientation_adjustment rec q_raw).2.2 ∧
    (_orientation_adjustment rec q_raw).2.2 ≤ rec.q_len := by
  unfold _orientation_adjustment
  by_cases hs : rec.strand = "+".data
  · rw [if_pos hs]
    exact ⟨hQ, h4, h5, h6⟩
  · rw [if_neg hs]
    refine ⟨?_, by dsimp only; omega, by dsimp only; omega, by dsimp only; omega⟩
    dsimp only
    rw [reverse_complement_length]
    exact hQ

/-- C3: for every chosen record with consistent spans and sequences of the
recorded lengths, the stitch output decomposes as
left-region ++ left-overhang ++ overlap-region ++ right-region ++
right-overhang, with left-region length `min(t_start, oriented q_start)`,
overlap length `rec.overlap`, right-region length
`min(t_len - t_end, oriented q_len - oriented q_end)`, each overhang the
length excess of the longer side, total length
`max(t_start, q_start') + overlap + max(t_len - t_end, q_len - q_end')`,
and the output named by joining the target and query identifiers. -/
theorem stitch_from_paf_regions (rec : PafRecord) (t_seq q_raw : Str)
    (hT : (t_seq.length : Int) = rec.t_len)
    (hQ : (q_raw.length : Int) = rec.q_len)
    (ht0 : 0 ≤ rec.t_start) (ht1 : rec.t_start ≤ rec.t_end)
    (ht2 : rec.t_end ≤ rec.t_len)
    (hq0 : 0 ≤ rec.q_start) (hq1 : rec.q_start ≤ rec.q_end)
    (hq2 : rec.q_end ≤ rec.q_len) :
    (((stitch_parts rec t_seq q_raw).left_seq.length : Int)
        = min rec.t_start (_orientation_adjustment rec q_raw).2.1) ∧
    (((stitch_parts rec t_seq q_raw).left_overhang.length : Int)
        = max rec.t_start (_orientation_adjustment rec q_raw).2.1
          - min rec.t_start (_orientation_adjustment rec q_raw).2.1) ∧
    (((stitch_parts rec t_seq q_raw).overlap_seq.length : Int) = rec.overlap) ∧
    (((stitch_parts rec t_seq q_raw).right_seq.length : Int)
        = min (rec.t_len - rec.t_end)
            (rec.q_len - (_orientation_adjustment rec q_raw).2.2)) ∧
    (((stitch_parts rec t_seq q_raw).right_overhang.length : Int)
        = max (rec.t_len - rec.t_end)
            (rec.q_len - (_orientation_adjustment rec q_raw).2.2)
          - min (rec.t_len - rec.t_end)
            (rec.q_len - (_orientation_adjustment rec q_raw).2.2)) ∧
    (stitch_merged_seq rec t_seq q_raw
        = (stitch_parts rec t_seq q_raw).left_seq
            ++ (stitch_parts rec t_seq q_raw).left_overhang
            ++ (stitch_parts rec t_seq q_raw).overlap_seq
            ++ (stitch_parts rec t_seq q_raw).right_seq
            ++ (stitch_parts rec t_seq q_raw).right_overhang) ∧
    (((stitch_merged_seq rec t_seq q_raw).length : Int)
        = max rec.t_start (_orientation_adjustment rec q_raw).2.1
          + rec.overlap
          + max (rec.t_len - rec.t_end)
              (rec.q_len - (_orientation_adjustment rec q_raw).2.2)) ∧
    merged_name rec = rec.target ++ '+' :: rec.query := by
  obtain ⟨hoL, ho0, ho1, ho2⟩ := orientation_facts rec q_raw hQ hq0 hq1 hq2
  have hov : 0 ≤ rec.overlap ∧ rec.overlap ≤ rec.t_end - rec.t_start := by
    simp only [PafRecord.overlap]
    omega
  have hL1 : ((stitch_parts rec t_seq q_raw).left_seq.length : Int)
      = min rec.t_start (_orientation_adjustment rec q_raw).2.1 := by
    simp only [stitch_parts]
    rw [pySliceI_length _ _ _ le_rfl (by omega) (by omega)]
    omega
  have hL2 : ((stitch_parts rec t_seq q_raw).left_overhang.length : Int)
      = max rec.t_start (_orientation_adjustment rec q_raw).2.1
        - min rec.t_start (_orientation_adjustment rec q_raw).2.1 := by
    simp only [stitch_parts]
    split_ifs with hlt hgt
    · rw [pySliceI_length _ _ _ (by omega) (by omega) (by omega)]
      omega
    · rw [pySliceI_length _ _ _ (by omega) (by omega) (by omega)]
      omega
    · simp only [List.length_nil, Nat.cast_zero]
      omega
  have hL3 : ((stitch_parts rec t_seq q_raw).overlap_seq.length : Int)
      = rec.overlap := by
    simp only [stitch_parts]
    rw [pySliceI_length _ _ _ (by omega) (by omega) (by omega)]
    omega
  have hL4 : ((stitch_parts rec t_seq q_raw).right_seq.length : Int)
      = min (rec.t_len - rec.t_end)
          (rec.q_len - (_orientation_adjustment rec q_raw).2.2) := by
    simp only [stitch_parts]
    rw [pySliceI_length _ _ _ (by omega) (by omega) (by omega)]
    omega
  have hL5 : ((stitch_parts rec t_seq q_raw).right_overhang.length : Int)
      = max (rec.t_len - rec.t_end)
          (rec.q_len - (_orientation_adjustment rec q_raw).2.2)
        - min (rec.t_len - rec.t_end)
          (rec.q_len - (_orientation_adjustment rec q_raw).2.2) := by
    simp only [stitch_parts]
    split_ifs with hlt hgt
    · rw [pySliceFrom_length _ _ (by omega) (by omega)]
      omega
    · rw [pySliceFrom_length _ _ (by omega) (by omega)]
      omega
    · simp only [List.length_nil, Nat.cast_zero]
      omega
  refine ⟨hL1, hL2, hL3, hL4, hL5, rfl, ?_, ?_⟩
  · have hcat : stitch_merged_seq rec t_seq q_raw
        = (stitch_parts rec t_seq q_raw).left_seq
            ++ (stitch_parts rec t_seq q_raw).left_overhang
            ++ (stitch_parts rec t_seq q_raw).overlap_seq
            ++ (stitch_parts rec t_seq q_raw).right_seq
            ++ (stitch_parts rec t_seq q_raw).right_overhang := rfl
    rw [hcat]
    simp only [List.length_append, Nat.cast_add]
    rw [hL1, hL2, hL3, hL4, hL5]
    omega
  · unfold merged_name
    rw [List.append_assoc]
    rfl

def c3Rec : PafRecord :=
  ⟨"t".data, 1000, 800, 1000, "+".data, "q".data, 1000, 0, 200, 200, 200, 60, []⟩

def c3T : Str := List.replicate 1000 'A'

def c3Q : Str := List.replicate 1000 'C'

set_option maxRecDepth 4000 in
/-- C3 witness: the theorem applied to two concrete 1000-base sequences
overlapping over 200 bases at matching ends; the total-length conjunct
evaluates to exactly 1800 bases. -/
theorem stitch_from_paf_regions_witness :
    ((stitch_merged_seq c3Rec c3T c3Q).length : Int) = 1800 := by
  have h := (stitch_from_paf_regions c3Rec c3T c3Q
    (by rw [show c3T = List.replicate 1000 'A' from rfl, List.length_replicate]; rfl)
    (by rw [show c3Q = List.replicate 1000 'C' from rfl, List.length_replicate]; rfl)
    (by decide) (by decide) (by decide) (by decide) (by decide)
    (by decide)).2.2.2.2.2.2.1
  rw [h]
  decide

/-! ## FASTA index and range reader (`gapneedle/gui/app.py`)

The FASTA file is modelled both as its list of newline-stripped lines
(the view `_build_fai` iterates over, each raw line being the stripped
line plus one `\n` byte) and as its byte string `file_bytes` (the view
`_read_range_from_fasta` seeks into; bytes are modelled as characters,
FASTA data being ASCII).  Python `None` for the not-yet-sampled line
geometry is `Option Nat`; the `.fai` file stores `None` as `0`
(`{line_len or 0}`). -/

structure FaiEntry where
  length : Nat
  offset : Nat
  line_len : Nat
  line_blen : Nat
  sequence : Option Str
deriving DecidableEq, Repr

/-- One row of the written `.fai` file (name, length, offset, line_len,
line_blen), with `0` encoding a `None` geometry. -/
structure FaiRow where
  name : Str
  length : Nat
  offset : Nat
  line_len : Nat
  line_blen : Nat
deriving DecidableEq, Repr

/-- The per-record running state of `_build_fai`:
`(seq_name, seq_len, seq_start, line_len, line_blen)`. -/
abbrev BuildState := Str × Nat × Nat × Option Nat × Option Nat

/-- The row `_build_fai` writes for a finished record
(`f"{seq_name}\t{seq_len}\t{seq_start}\t{line_len or 0}\t{line_blen or 0}"`). -/
def emitRow (s : BuildState) : FaiRow :=
  ⟨s.1, s.2.1, s.2.2.1, s.2.2.2.1.getD 0, s.2.2.2.2.getD 0⟩

/-- The line loop of `_build_fai` over the file's stripped lines; `pos` is
the running byte offset, each raw line occupying `line.length + 1` bytes
(`newline_len = 1`, hypotheses below exclude `\r`).  A header emits the
previous record's row (whenever a record is open, even with an empty
name); at end of file the open record is emitted only if its name is
nonempty (`if seq_name:`). -/
def build_fai_loop : List Str → Nat → Option BuildState → List FaiRow
  | [], _, none => []
  | [], _, some s => if s.1 ≠ [] then [emitRow s] else []
  | line :: rest, pos, cur =>
    if line.head? = some '>' then
      (match cur with
        | some s => [emitRow s]
        | none => []) ++
      build_fai_loop rest (pos + line.length + 1)
        (some ((line.drop 1).takeWhile (fun c => c ≠ ' '), 0,
          pos + line.length + 1, none, none))
    else
      match cur with
      | none => build_fai_loop rest (pos + line.length + 1) none
      | some (n, len, st, ll, lb) =>
        build_fai_loop rest (pos + line.length + 1)
          (some (n, len + line.length, st,
            (match ll with | none => some line.length | some v => some v),
            (match ll with | none => some (line.length + 1) | some _ => lb)))

/-- Model of `_build_fai(fasta_path, fai_path)`: the rows written, in order. -/
def build_fai (lines : List Str) : List FaiRow := build_fai_loop lines 0 none

/-- Model of `_read_index_from_fai`: the entry built back from a written row, with
the fixups `line_len = int(line_len) or int(slen)` and
`line_blen = int(line_blen) or int(line_len)` (the second `or` falls back
to the raw `line_len` column). -/
def entry_of_row (r : FaiRow) : FaiEntry :=
  { length := r.length, offset := r.offset,
    line_len := if r.line_len = 0 then r.length else r.line_len,
    line_blen := if r.line_blen = 0 then r.line_len else r.line_blen,
    sequence := none }

/-- The seek/read loop of `_read_range_from_fasta`.  `fuel` bounds the
number of iterations; `stop - start` always suffices because each pass
consumes `min(L - pos % L, stop - pos) ≥ 1` bases when `L > 0` (with
`L = 0` and `start < stop` Python would raise `ZeroDivisionError` on
`pos % 0`; that state is unreachable from this program's entries, whose
`line_len or length` is zero only when `length` is zero). -/
def read_range_loop (file : Str) (off L B stop : Nat) : Nat → Nat → Str
  | 0, _ => []
  | fuel + 1, pos =>
    if pos < stop then
      (file.drop (off + pos / L * B + pos % L)).take
          (min (L - pos % L) (stop - pos))
        ++ read_range_loop file off L B stop fuel
            (pos + min (L - pos % L) (stop - pos))
    else []

/-- Model of `_read_range_from_fasta(path, entry, start, end)`: empty on
`start >= end`; a direct substring for an in-memory entry; otherwise the
per-line seek/read loop with `line_len = entry.line_len or entry.length`
and `line_blen = entry.line_blen or line_len`. -/
def read_range (file : Str) (entry : FaiEntry) (start stop : Nat) : Str :=
  if stop ≤ start then []
  else
    match entry.sequence with
    | some s => (s.drop start).take (stop - start)
    | none =>
      let L := if entry.line_len = 0 then entry.length else entry.line_len
      let B := if entry.line_blen = 0 then L else entry.line_blen
      read_range_loop file entry.offset L B stop (stop - start) start

/-- The byte string of a file with the given newline-stripped lines. -/
def file_bytes (lines : List Str) : Str :=
  (lines.map (fun l => l ++ ['\n'])).flatten

/-- The lines of a FASTA file holding the given named records. -/
def fasta_lines (recs : List (Str × List Str)) : List Str :=
  recs.flatMap (fun r => ('>' :: r.1) :: r.2)

/-- Total byte count of the raw lines `ls` (one newline each). -/
def lineBytes (ls : List Str) : Nat := (ls.map (fun l => l.length + 1)).sum

/-- Total base count of the sequence lines `ls`. -/
def seqTotal (ls : List Str) : Nat := (ls.map List.length).sum

/-- The rows `_build_fai` produces on `fasta_lines recs` starting at byte
offset `pos` (proved below as `build_fai_on_fasta`). -/
def expectedRows : List (Str × List Str) → Nat → List FaiRow
  | [], _ => []
  | (n, ls) :: rest, pos =>
    ⟨n.takeWhile (fun c => c ≠ ' '), seqTotal ls, pos + n.length + 2,
      (ls.head?.map List.length).getD 0,
      (ls.head?.map (fun l => l.length + 1)).getD 0⟩
      :: expectedRows rest (pos + n.length + 2 + lineBytes ls)

/-- A record's header has a nonempty name token and neither its name nor
its sequence lines contain `\n`/`\r`; no sequence line starts with `>`. -/
def headerOk (r : Str × List Str) : Prop :=
  r.1.takeWhile (fun c => c ≠ ' ') ≠ [] ∧
  (∀ c ∈ r.1, c ≠ '\n' ∧ c ≠ '\r') ∧
  (∀ l ∈ r.2, l.head? ≠ some '>' ∧ ∀ c ∈ l, c ≠ '\n' ∧ c ≠ '\r')

/-- All sequence lines except the last have the first line's length. -/
def interiorUniform (ls : List Str) : Prop :=
  ∀ l ∈ ls.dropLast, l.length = (ls.headD []).length

/-- The final sequence line is no longer than the first. -/
def finalFits (ls : List Str) : Prop :=
  (ls.getLastD []).length ≤ (ls.headD []).length

instance (r : Str × List Str) : Decidable (headerOk r) := by
  unfold headerOk
  infer_instance

instance (ls : List Str) : Decidable (interiorUniform ls) := by
  unfold interiorUniform
  infer_instance

instance (ls : List Str) : Decidable (finalFits ls) := by
  unfold finalFits
  infer_instance

/-! ### Canonical form of the reader loop -/

theorem filterMap_getElem?_range'_of_le (file : Str) :
    ∀ (k a : Nat), file.length ≤ a →
      (List.range' a k).filterMap (fun q => file[q]?) = [] := by
  intro k
  induction k with
  | zero => intro a _; rfl
  | succ k ih =>
    intro a ha
    rw [List.range'_succ, List.filterMap_cons]
    rw [List.getElem?_eq_none ha]
    exact ih (a + 1) (by omega)

theorem drop_take_filterMap (file : Str) :
    ∀ (k a : Nat),
      (file.drop a).take k = (List.range' a k).filterMap (fun q => file[q]?) := by
  intro k
  induction k with
  | zero => intro a; simp
  | succ k ih =>
    intro a
    by_cases ha : a < file.length
    · rw [List.drop_eq_getElem_cons ha, List.take_succ_cons,
        List.range'_succ, List.filterMap_cons, List.getElem?_eq_getElem ha]
      exact congrArg _ (ih (a + 1))
    · rw [List.drop_eq_nil_of_le (by omega), List.take_nil, List.range'_succ,
        List.filterMap_cons, List.getElem?_eq_none (by omega)]
      exact (filterMap_getElem?_range'_of_le file k (a + 1) (by omega)).symm

theorem div_mod_add_of_lt (pos j L : Nat) (hL : 0 < L)
    (hj : j < L - pos % L) :
    (pos + j) / L = pos / L ∧ (pos + j) % L = pos % L + j := by
  have hmod : pos % L < L := Nat.mod_lt pos hL
  have hlt : pos % L + j < L := by omega
  constructor
  · conv_lhs => rw [← Nat.div_add_mod pos L]
    rw [Nat.add_assoc, Nat.add_comm (L * (pos / L)) (pos % L + j),
      Nat.add_mul_div_left _ _ hL, Nat.div_eq_of_lt hlt, Nat.zero_add]
  · conv_lhs => rw [← Nat.div_add_mod pos L]
    rw [Nat.add_assoc, Nat.add_comm (L * (pos / L)) (pos % L + j),
      Nat.add_mul_mod_self_left, Nat.mod_eq_of_lt hlt]

theorem chunk_filterMap (file : Str) (off L B pos t : Nat) (hL : 0 < L)
    (ht : t ≤ L - pos % L) :
    (file.drop (off + pos / L * B + pos % L)).take t
      = (List.range' pos t).filterMap
          (fun q => file[off + q / L * B + q % L]?) := by
  rw [drop_take_filterMap, List.range'_eq_map_range, List.range'_eq_map_range,
    List.filterMap_map, List.filterMap_map]
  apply List.filterMap_congr
  intro j hj
  rw [List.mem_range] at hj
  obtain ⟨hdiv, hmod⟩ := div_mod_add_of_lt pos j L hL (by omega)
  simp only [Function.comp_apply, hdiv, hmod]
  congr 1
  omega

theorem read_range_loop_eq (file : Str) (off L B stop : Nat) (hL : 0 < L) :
    ∀ (fuel pos : Nat), stop - pos ≤ fuel →
      read_range_loop file off L B stop fuel pos
        = (List.range' pos (stop - pos)).filterMap
            (fun q => file[off + q / L * B + q % L]?) := by
  intro fuel
  induction fuel with
  | zero =>
    intro pos h
    have h0 : stop - pos = 0 := by omega
    rw [h0]
    rfl
  | succ fuel ih =>
    intro pos h
    by_cases hps : pos < stop
    · rw [read_range_loop, if_pos hps]
      have hmod : pos % L < L := Nat.mod_lt pos hL
      set t := min (L - pos % L) (stop - pos) with ht
      have h1 : 1 ≤ t := by omega
      have hsplit : stop - pos = (stop - (pos + t)) + t := by omega
      conv_rhs => rw [hsplit, ← List.range'_append_1]
      rw [List.filterMap_append]
      congr 1
      · exact chunk_filterMap file off L B pos t hL (min_le_left _ _)
      · exact ih (pos + t) (by omega)
    · rw [read_range_loop, if_neg hps]
      have h0 : stop - pos = 0 := by omega
      rw [h0]
      rfl

/-- Evaluation of `read_range` on a no-in-memory entry with positive effective line
length is the byte extraction along the index formula. -/
theorem read_range_eq_filterMap (file : Str) (entry : FaiEntry)
    (start stop : Nat) (hseq : entry.sequence = none)
    (hL : 0 < (if entry.line_len = 0 then entry.length else entry.line_len))
    (hss : start ≤ stop) :
    read_range file entry start stop
      = (List.range' start (stop - start)).filterMap
          (fun q => file[entry.offset
            + q / (if entry.line_len = 0 then entry.length else entry.line_len)
              * (if entry.line_blen = 0 then
                  (if entry.line_len = 0 then entry.length else entry.line_len)
                 else entry.line_blen)
            + q % (if entry.line_len = 0 then entry.length else entry.line_len)]?) := by
  unfold read_range
  by_cases hstop : stop ≤ start
  · rw [if_pos hstop]
    have h0 : stop - start = 0 := by omega
    rw [h0]
    rfl
  · rw [if_neg hstop, hseq]
    exact read_range_loop_eq file entry.offset _ _ stop hL (stop - start) start le_rfl

/-- C2: for every index entry and `0 ≤ start ≤ mid ≤ stop ≤ length`,
reading `[start, mid)` then `[mid, stop)` concatenates to reading
`[start, stop)`. -/
theorem read_range_split (file : Str) (entry : FaiEntry)
    (start mid stop : Nat) (h1 : start ≤ mid) (h2 : mid ≤ stop)
    (h3 : stop ≤ entry.length) :
    read_range file entry start mid ++ read_range file entry mid stop
      = read_range file entry start stop := by
  cases hseq : entry.sequence with
  | some s =>
    have hread : ∀ a b : Nat, a ≤ b →
        read_range file entry a b = (s.drop a).take (b - a) := by
      intro a b hab
      unfold read_range
      by_cases hba : b ≤ a
      · rw [if_pos hba]
        have h0 : b - a = 0 := by omega
        simp [h0]
      · rw [if_neg hba, hseq]
    rw [hread start mid h1, hread mid stop h2, hread start stop (le_trans h1 h2)]
    have hdm : s.drop mid = (s.drop start).drop (mid - start) := by
      rw [List.drop_drop]
      congr 1
      omega
    rw [hdm]
    have hsum : stop - start = (mid - start) + (stop - mid) := by omega
    rw [hsum, List.take_add]
  | none =>
    by_cases hL : 0 < (if entry.line_len = 0 then entry.length else entry.line_len)
    · rw [read_range_eq_filterMap file entry start mid hseq hL h1,
        read_range_eq_filterMap file entry mid stop hseq hL h2,
        read_range_eq_filterMap file entry start stop hseq hL (le_trans h1 h2)]
      rw [← List.filterMap_append]
      congr 1
      have hm : List.range' start (mid - start)
            ++ List.range' (start + (mid - start)) (stop - mid)
          = List.range' start ((stop - mid) + (mid - start)) :=
        List.range'_append_1 start (mid - start) (stop - mid)
      have hm2 : start + (mid - start) = mid := by omega
      rw [hm2] at hm
      rw [hm]
      congr 1
      omega
    · have hlen : entry.length = 0 := by
        by_cases hll : entry.line_len = 0
        · rw [if_pos hll] at hL
          omega
        · rw [if_neg hll] at hL
          omega
      have hs0 : start = 0 := by omega
      have hm0 : mid = 0 := by omega
      have he0 : stop = 0 := by omega
      subst hs0; subst hm0; subst he0
      rfl

def c2File : Str := ">a\nACGT\nAC\n".data

def c2Entry : FaiEntry := ⟨6, 3, 4, 5, none⟩

/-- C2 witness: the theorem applied to a concrete two-line record and the
concrete split `0 ≤ 3 ≤ 6`. -/
theorem read_range_split_witness :
    read_range c2File c2Entry 0 3 ++ read_range c2File c2Entry 3 6
      = read_range c2File c2Entry 0 6 :=
  read_range_split c2File c2Entry 0 3 6 (by decide) (by decide) (by decide)

/-! ### Line geometry of the serialized record body -/

theorem getLastD_cons_cons {α : Type} (a b : α) (t : List α) (d : α) :
    (a :: b :: t).getLastD d = (b :: t).getLastD d := by
  rw [List.getLastD_cons, List.getLastD_cons, List.getLastD_cons]

theorem seqTotal_eq_zero (ls : List Str)
    (hint : ∀ l ∈ ls.dropLast, l.length = 0)
    (hlast : (ls.getLastD []).length = 0) : seqTotal ls = 0 := by
  induction ls with
  | nil => rfl
  | cons l t ih =>
    cases t with
    | nil =>
      simp only [seqTotal, List.map_cons, List.map_nil, List.sum_cons,
        List.sum_nil, Nat.add_zero]
      simpa [List.getLastD_cons] using hlast
    | cons l2 t2 =>
      have h1 : l.length = 0 := hint l (by simp [List.dropLast_cons₂])
      have ih' := ih
        (fun x hx => hint x (by simp only [List.dropLast_cons₂]; exact List.mem_cons_of_mem _ hx))
        (by rw [getLastD_cons_cons] at hlast; exact hlast)
      simp only [seqTotal, List.map_cons, List.sum_cons] at ih' ⊢
      omega

/-- The core geometry lemma: in the byte image of sequence lines whose
interior lines all have length `L` and whose final line is no longer, the
base at sequence position `q` sits at byte
`q / L * (L + 1) + q % L`. -/
theorem seq_bytes_get (L : Nat) :
    ∀ (ls : List Str) (q : Nat),
      (∀ l ∈ ls.dropLast, l.length = L) →
      (ls.getLastD []).length ≤ L →
      q < seqTotal ls →
      ((ls.map (fun l => l ++ ['\n'])).flatten)[q / L * (L + 1) + q % L]?
        = (ls.flatten)[q]? := by
  intro ls
  induction ls with
  | nil =>
    intro q _ _ hq
    simp [seqTotal] at hq
  | cons l t ih =>
    intro q hint hlast hq
    cases t with
    | nil =>
      have hq' : q < l.length := by
        simpa [seqTotal] using hq
      have hqL : q < L := by
        have : l.length ≤ L := by simpa [List.getLastD_cons] using hlast
        omega
      rw [Nat.div_eq_of_lt hqL, Nat.mod_eq_of_lt hqL, Nat.zero_mul,
        Nat.zero_add]
      simp only [List.map_cons, List.map_nil, List.flatten_cons,
        List.flatten_nil, List.append_nil]
      rw [List.getElem?_append_left hq']
    | cons l2 t2 =>
      have hl : l.length = L := hint l (by simp [List.dropLast_cons₂])
      rcases Nat.eq_zero_or_pos L with hL0 | hL0
      · exfalso
        have h0 : seqTotal (l :: l2 :: t2) = 0 := by
          apply seqTotal_eq_zero
          · intro x hx
            rw [hint x hx, hL0]
          · have := hlast
            omega
        omega
      have htotal : seqTotal (l :: l2 :: t2)
          = l.length + seqTotal (l2 :: t2) := by
        simp [seqTotal]
      by_cases hqL : q < L
      · rw [Nat.div_eq_of_lt hqL, Nat.mod_eq_of_lt hqL, Nat.zero_mul,
          Nat.zero_add]
        simp only [List.map_cons, List.flatten_cons]
        rw [List.getElem?_append_left (show q < (l ++ ['\n']).length by
            rw [List.length_append]; omega),
          List.getElem?_append_left (show q < l.length by omega),
          List.getElem?_append_left (show q < l.length by omega)]
      · have hqL' : L ≤ q := by omega
        have hdiv : q / L = (q - L) / L + 1 := Nat.div_eq_sub_div hL0 hqL'
        have hmod : q % L = (q - L) % L := Nat.mod_eq_sub_mod hqL'
        rw [hdiv, hmod, Nat.add_mul, Nat.one_mul]
        simp only [List.map_cons, List.flatten_cons]
        have hidx : (q - L) / L * (L + 1) + (L + 1) + (q - L) % L
            = (l ++ ['\n']).length + ((q - L) / L * (L + 1) + (q - L) % L) := by
          rw [List.length_append, hl]
          simp only [List.length_singleton]
          omega
        rw [hidx, List.getElem?_append_right (by omega)]
        have hsub : (l ++ ['\n']).length + ((q - L) / L * (L + 1) + (q - L) % L)
            - (l ++ ['\n']).length = (q - L) / L * (L + 1) + (q - L) % L := by
          omega
        rw [hsub]
        have hql : l.length ≤ q := by omega
        conv_rhs => rw [List.getElem?_append_right hql]
        have hlq : q - l.length = q - L := by omega
        rw [hlq]
        exact ih (q - L)
          (fun x hx => hint x (by simp only [List.dropLast_cons₂]; exact List.mem_cons_of_mem _ hx))
          (by rw [getLastD_cons_cons] at hlast; exact hlast)
          (by omega)

/-! ### `_build_fai` on a structured FASTA file -/

/-- The sampled line length after consuming the lines `ls` (set from the
first consumed line, then frozen). -/
def fillLL (ll : Option Nat) (ls : List Str) : Option Nat :=
  match ll, ls with
  | none, l :: _ => some l.length
  | _, _ => ll

/-- The sampled line byte length after consuming the lines `ls`. -/
def fillLB (ll lb : Option Nat) (ls : List Str) : Option Nat :=
  match ll, ls with
  | none, l :: _ => some (l.length + 1)
  | _, _ => lb

theorem build_fai_loop_lines (ls : List Str)
    (hls : ∀ l ∈ ls, l.head? ≠ some '>') :
    ∀ (rest : List Str) (pos : Nat) (n : Str) (len st : Nat)
      (ll lb : Option Nat),
    build_fai_loop (ls ++ rest) pos (some (n, len, st, ll, lb))
      = build_fai_loop rest (pos + lineBytes ls)
          (some (n, len + seqTotal ls, st, fillLL ll ls, fillLB ll lb ls)) := by
  induction ls with
  | nil =>
    intro rest pos n len st ll lb
    simp [lineBytes, seqTotal, fillLL, fillLB]
  | cons l t ih =>
    intro rest pos n len st ll lb
    have hlh : l.head? ≠ some '>' := hls l (List.mem_cons_self l t)
    have hstep : build_fai_loop ((l :: t) ++ rest) pos (some (n, len, st, ll, lb))
        = build_fai_loop (t ++ rest) (pos + l.length + 1)
            (some (n, len + l.length, st,
              (match ll with | none => some l.length | some v => some v),
              (match ll with | none => some (l.length + 1) | some _ => lb))) := by
      rw [List.cons_append, build_fai_loop, if_neg hlh]
    rw [hstep, ih (fun x hx => hls x (List.mem_cons_of_mem _ hx))]
    have harith : pos + l.length + 1 + lineBytes t = pos + lineBytes (l :: t) := by
      simp [lineBytes]
      omega
    have htot : len + l.length + seqTotal t = len + seqTotal (l :: t) := by
      simp [seqTotal]
      omega
    rw [harith, htot]
    cases ll with
    | none => rfl
    | some v => rfl

theorem build_fai_loop_fasta (recs : List (Str × List Str))
    (h : ∀ r ∈ recs, headerOk r) :
    ∀ (pos : Nat) (s : BuildState), s.1 ≠ [] →
      build_fai_loop (fasta_lines recs) pos (some s)
        = emitRow s :: expectedRows recs pos := by
  induction recs with
  | nil =>
    intro pos s hs
    simp only [fasta_lines, List.flatMap_nil]
    rw [build_fai_loop, if_pos hs]
    rfl
  | cons r rest ih =>
    intro pos s hs
    obtain ⟨n, ls⟩ := r
    have hhead : (('>' :: n) : Str).head? = some '>' := rfl
    have hlines : fasta_lines ((n, ls) :: rest)
        = ('>' :: n) :: (ls ++ fasta_lines rest) := by
      simp [fasta_lines]
    rw [hlines, build_fai_loop, if_pos hhead]
    rw [build_fai_loop_lines ls
      (fun l hl => ((h (n, ls) (List.mem_cons_self _ _)).2.2 l hl).1)]
    rw [ih (fun x hx => h x (List.mem_cons_of_mem _ hx)) _ _
      (h (n, ls) (List.mem_cons_self _ _)).1]
    have hoff : pos + (('>' :: n) : Str).length + 1 = pos + n.length + 2 := by
      simp only [List.length_cons]
      omega
    rw [hoff]
    simp only [expectedRows]
    cases ls with
    | nil => simp [emitRow, fillLL, fillLB, seqTotal]
    | cons l t => simp [emitRow, fillLL, fillLB]

/-- Running `_build_fai` over the serialized lines of `recs` produces exactly the
row list `expectedRows recs 0`. -/
theorem build_fai_on_fasta (recs : List (Str × List Str))
    (h : ∀ r ∈ recs, headerOk r) :
    build_fai (fasta_lines recs) = expectedRows recs 0 := by
  cases recs with
  | nil => rfl
  | cons r rest =>
    obtain ⟨n, ls⟩ := r
    unfold build_fai
    have hlines : fasta_lines ((n, ls) :: rest)
        = ('>' :: n) :: (ls ++ fasta_lines rest) := by
      simp [fasta_lines]
    have hhead : (('>' :: n) : Str).head? = some '>' := rfl
    rw [hlines, build_fai_loop, if_pos hhead]
    rw [build_fai_loop_lines ls
      (fun l hl => ((h (n, ls) (List.mem_cons_self _ _)).2.2 l hl).1)]
    rw [build_fai_loop_fasta rest (fun x hx => h x (List.mem_cons_of_mem _ hx)) _ _
      (h (n, ls) (List.mem_cons_self _ _)).1]
    have hoff : 0 + (('>' :: n) : Str).length + 1 = 0 + n.length + 2 := by
      simp only [List.length_cons]
      omega
    rw [hoff]
    simp only [expectedRows]
    cases ls with
    | nil => simp [emitRow, fillLL, fillLB, seqTotal]
    | cons l t => simp [emitRow, fillLL, fillLB]


/-! ### Reading a whole record back through its built index row -/

theorem file_bytes_cons (l : Str) (ls : List Str) :
    file_bytes (l :: ls) = (l ++ ['\n']) ++ file_bytes ls := by
  simp [file_bytes]

theorem file_bytes_append (ls₁ ls₂ : List Str) :
    file_bytes (ls₁ ++ ls₂) = file_bytes ls₁ ++ file_bytes ls₂ := by
  simp [file_bytes]

theorem file_bytes_length (ls : List Str) :
    (file_bytes ls).length = lineBytes ls := by
  induction ls with
  | nil => rfl
  | cons l t ih =>
    rw [file_bytes_cons]
    simp only [lineBytes, List.map_cons, List.sum_cons] at ih ⊢
    simp only [List.length_append, List.length_singleton]
    omega

theorem seqTotal_flatten (ls : List Str) : ls.flatten.length = seqTotal ls := by
  simp [seqTotal]

/-- Reading `[0, seqTotal ls)` through the entry rebuilt from the written
row recovers the record's bases, for a record whose sequence bytes start
right after `pre` and whose final line is no longer than its (uniform)
interior lines. -/
theorem read_range_record (pre post : Str) (nm : Str) (ls : List Str)
    (hu : interiorUniform ls) (hf : finalFits ls) :
    read_range (pre ++ file_bytes ls ++ post)
      (entry_of_row ⟨nm, seqTotal ls, pre.length,
        (ls.head?.map List.length).getD 0,
        (ls.head?.map (fun l => l.length + 1)).getD 0⟩)
      0 (seqTotal ls)
      = ls.flatten := by
  by_cases h0 : seqTotal ls = 0
  · rw [h0]
    rw [read_range, if_pos le_rfl]
    have : ls.flatten.length = 0 := by rw [seqTotal_flatten, h0]
    exact (List.eq_nil_of_length_eq_zero this).symm
  · cases ls with
    | nil => exact absurd rfl h0
    | cons l t =>
      have hl0 : 0 < l.length := by
        rcases Nat.eq_zero_or_pos l.length with hz | hp
        · exfalso
          apply h0
          apply seqTotal_eq_zero
          · intro x hx
            rw [hu x hx]
            simpa using hz
          · have := hf
            unfold finalFits at this
            simp only [List.headD_cons] at this
            omega
        · exact hp
      have hrow : (⟨nm, seqTotal (l :: t), pre.length,
            ((l :: t).head?.map List.length).getD 0,
            ((l :: t).head?.map (fun x => x.length + 1)).getD 0⟩ : FaiRow)
          = ⟨nm, seqTotal (l :: t), pre.length, l.length, l.length + 1⟩ := by
        simp
      rw [hrow]
      have hentry : entry_of_row
            ⟨nm, seqTotal (l :: t), pre.length, l.length, l.length + 1⟩
          = ⟨seqTotal (l :: t), pre.length, l.length, l.length + 1, none⟩ := by
        unfold entry_of_row
        simp only [if_neg (by omega : ¬ l.length = 0),
          if_neg (by omega : ¬ l.length + 1 = 0)]
      rw [hentry]
      have hL : 0 < (if (⟨seqTotal (l :: t), pre.length, l.length,
          l.length + 1, none⟩ : FaiEntry).line_len = 0
          then (⟨seqTotal (l :: t), pre.length, l.length, l.length + 1,
            none⟩ : FaiEntry).length
          else (⟨seqTotal (l :: t), pre.length, l.length, l.length + 1,
            none⟩ : FaiEntry).line_len) := by
        simp only [if_neg (by omega : ¬ l.length = 0)]
        omega
      rw [read_range_eq_filterMap _ _ 0 (seqTotal (l :: t)) rfl hL
        (Nat.zero_le _)]
      simp only [if_neg (by omega : ¬ l.length = 0),
        if_neg (by omega : ¬ l.length + 1 = 0), Nat.sub_zero]
      have hcongr : ∀ q ∈ List.range' 0 (seqTotal (l :: t)),
          (pre ++ file_bytes (l :: t) ++ post)[pre.length
              + q / l.length * (l.length + 1) + q % l.length]?
            = ((l :: t).flatten)[q]? := by
        intro q hq
        obtain ⟨i, hi, rfl⟩ := List.mem_range'.1 hq
        have hqlt : 0 + 1 * i < seqTotal (l :: t) := by omega
        have hbody : (file_bytes (l :: t))[(0 + 1 * i) / l.length
              * (l.length + 1) + (0 + 1 * i) % l.length]?
            = ((l :: t).flatten)[0 + 1 * i]? := by
          apply seq_bytes_get
          · intro x hx
            exact hu x hx
          · have := hf
            unfold finalFits at this
            simpa using this
          · exact hqlt
        have hsome : ((l :: t).flatten)[0 + 1 * i]?.isSome := by
          rw [List.getElem?_eq_getElem (by rw [seqTotal_flatten]; exact hqlt)]
          rfl
        have hin : (0 + 1 * i) / l.length * (l.length + 1)
            + (0 + 1 * i) % l.length < (file_bytes (l :: t)).length := by
          by_contra hge
          have hnone : ((l :: t).flatten)[0 + 1 * i]? = none := by
            rw [← hbody]
            exact List.getElem?_eq_none (by omega)
          rw [hnone] at hsome
          simp at hsome
        rw [List.append_assoc, Nat.add_assoc]
        rw [List.getElem?_append_right (by omega), Nat.add_sub_cancel_left]
        rw [List.getElem?_append_left hin]
        exact hbody
      rw [List.filterMap_congr hcongr]
      have hlen : seqTotal (l :: t) = ((l :: t).flatten).length :=
        (seqTotal_flatten _).symm
      rw [hlen, ← drop_take_filterMap ((l :: t).flatten) _ 0, List.drop_zero,
        List.take_length]

theorem read_expected (recs : List (Str × List Str))
    (h : ∀ r ∈ recs, headerOk r ∧ interiorUniform r.2 ∧ finalFits r.2) :
    ∀ (pos : Nat) (pre post : Str), pre.length = pos →
      (expectedRows recs pos).map
          (fun row => read_range (pre ++ file_bytes (fasta_lines recs) ++ post)
            (entry_of_row row) 0 row.length)
        = recs.map (fun r => r.2.flatten) := by
  induction recs with
  | nil =>
    intro pos pre post _
    rfl
  | cons r rest ih =>
    intro pos pre post hpre
    obtain ⟨n, ls⟩ := r
    have hfa : fasta_lines ((n, ls) :: rest)
        = ('>' :: n) :: (ls ++ fasta_lines rest) := by
      simp [fasta_lines]
    have hfileA : pre ++ file_bytes (fasta_lines ((n, ls) :: rest)) ++ post
        = (pre ++ (('>' :: n) ++ ['\n'])) ++ file_bytes ls
          ++ (file_bytes (fasta_lines rest) ++ post) := by
      rw [hfa, file_bytes_cons, file_bytes_append]
      simp [List.append_assoc]
    have hfileB : pre ++ file_bytes (fasta_lines ((n, ls) :: rest)) ++ post
        = ((pre ++ (('>' :: n) ++ ['\n'])) ++ file_bytes ls)
          ++ file_bytes (fasta_lines rest) ++ post := by
      rw [hfa, file_bytes_cons, file_bytes_append]
      simp [List.append_assoc]
    have hlenA : (pre ++ (('>' :: n) ++ ['\n'])).length = pos + n.length + 2 := by
      simp only [List.length_append, List.length_cons, List.length_nil, hpre]
      omega
    simp only [expectedRows, List.map_cons]
    congr 1
    · rw [hfileA, ← hlenA]
      exact read_range_record _ _ _ ls
        (h (n, ls) (List.mem_cons_self _ _)).2.1
        (h (n, ls) (List.mem_cons_self _ _)).2.2
    · rw [hfileB]
      exact ih (fun x hx => h x (List.mem_cons_of_mem _ hx))
        (pos + n.length + 2 + lineBytes ls)
        ((pre ++ (('>' :: n) ++ ['\n'])) ++ file_bytes ls) post
        (by rw [List.length_append, hlenA, file_bytes_length])

/-- C1 (amended): for a multi-record FASTA whose records each have a
uniform interior line length and a final line no longer than the interior
lines, building the index (`_build_fai` then `_read_index_from_fai`) and
reading each record's full range `[0, length)` via
`_read_range_from_fasta` returns exactly that record's original bases. -/
theorem build_fai_read_range_roundtrip (recs : List (Str × List Str))
    (h : ∀ r ∈ recs, headerOk r ∧ interiorUniform r.2 ∧ finalFits r.2) :
    (build_fai (fasta_lines recs)).map
        (fun row => read_range (file_bytes (fasta_lines recs))
          (entry_of_row row) 0 row.length)
      = recs.map (fun r => r.2.flatten) := by
  rw [build_fai_on_fasta recs (fun r hr => (h r hr).1)]
  have hmain := read_expected recs h 0 [] [] rfl
  rw [List.nil_append, List.append_nil] at hmain
  exact hmain

def c1CexRecs : List (Str × List Str) :=
  [("a".data, ["AB".data, "CDEF".data]), ("b".data, ["GG".data])]

/-- C1 counterexample: a two-record FASTA whose first record has a
longer final line (`AB`, then `CDEF`) satisfies the claim's precondition
(uniform interior line lengths), yet reading the record's full range back
through the built index does not reproduce its bases (the sampled
geometry `line_len = 2` makes the reader skip into the newline and the
next record). -/
theorem build_fai_longer_final_line_cex :
    (∀ r ∈ c1CexRecs, headerOk r ∧ interiorUniform r.2) ∧
    (build_fai (fasta_lines c1CexRecs)).map
        (fun row => read_range (file_bytes (fasta_lines c1CexRecs))
          (entry_of_row row) 0 row.length)
      ≠ c1CexRecs.map (fun r => r.2.flatten) := by decide

def c1GoodRecs : List (Str × List Str) :=
  [("a".data, ["ACGT".data, "AC".data]), ("b".data, ["GGG".data])]

/-- C1 witness: the amended theorem applied to a concrete two-record FASTA
with irregular (shorter) final lines. -/
theorem build_fai_read_range_roundtrip_witness :
    (build_fai (fasta_lines c1GoodRecs)).map
        (fun row => read_range (file_bytes (fasta_lines c1GoodRecs))
          (entry_of_row row) 0 row.length)
      = c1GoodRecs.map (fun r => r.2.flatten) :=
  build_fai_read_range_roundtrip c1GoodRecs (by decide)

end GapNeedle
